import Mathlib

/-!
Shallow embedding of `flavio/statistics/probability.py`.

Real numbers model Python floats (exact real arithmetic), and `EReal`
models log-density values, whose `-np.inf` is `⊥`.  Methods that can
raise a Python exception are modelled as `Except String`.  The numpy and
scipy primitives used by the source (`scipy.stats.norm.logpdf`,
`scipy.interpolate.interp1d`, `np.linspace`, `np.argmax`, `np.cumsum`,
`scipy.signal.fftconvolve`, the `np.random` draws) are external
libraries and are modelled by their mathematical definitions.  Random
draws are modelled by oracle streams `ωu ωz : ℕ → ℝ` supplying the
underlying uniform and standard-normal draws consumed by `np.random`.
-/

namespace Flavio

noncomputable section

open Classical

/-- A Python value that is either a scalar or a one-dimensional numpy array. -/
inductive PyV (α : Type) where
  | scalar (val : α)
  | arr (vals : List α)

/-- Whether a `PyV` is an array. -/
def PyV.isArr {α : Type} : PyV α → Bool
  | .scalar _ => false
  | .arr _ => true

/-- Whether a computation succeeded without raising. -/
def isOk {ε α : Type} : Except ε α → Bool
  | .ok _ => true
  | .error _ => false

def msgIndex : String := "IndexError: list index out of range"

def msgCentralRange : String := "ValueError: Central value must be within range provided"

def msgArgmaxEmpty : String := "ValueError: attempt to get argmax of an empty sequence"

def msgInterpLen : String := "ValueError: interp1d needs at least 2 entries of equal length"

def msgAmbiguous : String := "ValueError: the truth value of an array is ambiguous"

def msgDeviations : String := "ValueError: Left and right standard deviations must be positive numbers"

def msgConfidence : String := "ValueError: Confidence level should be between 0 und 1"

def msgAllNormal : String := "AssertionError: Distributions should all be instances of NormalDistribution"

def msgAllNumerical : String := "AssertionError: Distributions should all be instances of NumericalDistribution"

def msgSameCentral : String := "AssertionError: Distrubtions must all have the same central value"

def msgLenMismatch : String := "ValueError: x and y arrays must be equal in length"

/-- Model of scipy.stats.norm.logpdf(x, loc, scale). -/
def normLogpdf (x loc scale : ℝ) : ℝ :=
  -((x - loc) / scale) ^ 2 / 2 - Real.log (Real.sqrt (2 * Real.pi)) - Real.log scale

/-- Model of scipy.stats.norm.pdf(x, loc, scale). -/
def normPdf (x loc scale : ℝ) : ℝ :=
  Real.exp (-((x - loc) / scale) ^ 2 / 2) / (Real.sqrt (2 * Real.pi) * scale)

/-- Model of np.exp on a log-density value, where `np.exp(-np.inf) = 0`.
The value `⊤` never arises from the code. -/
def expE (e : EReal) : ℝ :=
  if e = ⊥ then 0 else Real.exp e.toReal

/-- Model of np.log on a float: `np.log 0 = -np.inf`.  A negative
argument yields numpy's nan (no caller of the source produces one);
it is mapped to `⊥` as well. -/
def npLog (v : ℝ) : EReal :=
  if v ≤ 0 then (⊥ : EReal) else ((Real.log v : ℝ) : EReal)

/-- Model of np.linspace(a, b, n): `n` evenly spaced points from `a` to
`b`, both endpoints included. -/
def linspace (a b : ℝ) (n : ℕ) : List ℝ :=
  (List.range n).map fun i : ℕ => a + (b - a) * (i : ℝ) / ((n : ℝ) - 1)

/-- Model of np.cumsum. -/
def cumsum (l : List ℝ) : List ℝ :=
  (l.scanl (· + ·) 0).tail

/-- Effect of the assignments `arr[0] = a; arr[-1] = b` on a numpy array. -/
def setFirstLast (l : List ℝ) (a b : ℝ) : List ℝ :=
  (l.set 0 a).set (l.length - 1) b

/-- Model of np.argmax: index of the first occurrence of the maximum. -/
def npArgmax (y : List ℝ) : ℕ :=
  match y with
  | [] => 0
  | y0 :: _ =>
    (y.enum.foldl (fun best iv => if best.2 < iv.2 then iv else best) (0, y0)).1

/-- Linear interpolation of one grid segment with extended-real ordinate
values.  A segment with an infinite endpoint is mapped to `⊥` (numpy
produces `-inf` or nan arithmetic there; no claim depends on those
values). -/
def lerpE (x0 x1 t : ℝ) (y0 y1 : EReal) : EReal :=
  if y0 = ⊥ ∨ y1 = ⊥ ∨ y0 = ⊤ ∨ y1 = ⊤ then (⊥ : EReal)
  else ((y0.toReal + (y1.toReal - y0.toReal) * (t - x0) / (x1 - x0) : ℝ) : EReal)

/-- Model of evaluating scipy.interpolate.interp1d through the points of
a sorted grid, with `fill` outside the grid (bounds_error=False), for
extended-real ordinates. -/
def interpSegsE (fill : EReal) : List (ℝ × EReal) → ℝ → EReal
  | [], _ => fill
  | [(x0, y0)], t => if t = x0 then y0 else fill
  | (x0, y0) :: (x1, y1) :: rest, t =>
    if t < x0 then fill
    else if t ≤ x1 then lerpE x0 x1 t y0 y1
    else interpSegsE fill ((x1, y1) :: rest) t

/-- Model of evaluating scipy.interpolate.interp1d through the points of
a sorted grid with real ordinates (the quantile table `ppf_interp`);
evaluation stays inside the grid in every use by the source, so the
out-of-range value is irrelevant and modelled by `fill`. -/
def interpSegsR (fill : ℝ) : List (ℝ × ℝ) → ℝ → ℝ
  | [], _ => fill
  | [(x0, y0)], t => if t = x0 then y0 else fill
  | (x0, y0) :: (x1, y1) :: rest, t =>
    if t < x0 then fill
    else if t ≤ x1 then y0 + (y1 - y0) * (t - x0) / (x1 - x0)
    else interpSegsR fill ((x1, y1) :: rest) t

/-- Full discrete linear convolution, which is what
scipy.signal.fftconvolve computes in exact arithmetic. -/
def convolveFull (a b : List ℝ) : List ℝ :=
  (List.range (a.length + b.length - 1)).map fun k =>
    ∑ i in Finset.range (k + 1), a.getD i 0 * b.getD (k - i) 0

/-- Model of scipy.signal.fftconvolve(a, b, 'same'): the central
`a.length` entries of the full convolution. -/
def fftconvolveSame (a b : List ℝ) : List ℝ :=
  (List.range a.length).map fun j => (convolveFull a b).getD (j + (b.length - 1) / 2) 0

/-- Model of np.random.uniform(lo, hi, size); `ω` is the stream of
underlying uniform draws from `[0, 1)`. -/
def npRandomUniform (lo hi : ℝ) (size : Option ℕ) (ω : ℕ → ℝ) : PyV ℝ :=
  match size with
  | none => .scalar (lo + (hi - lo) * ω 0)
  | some n => .arr ((List.range n).map fun i => lo + (hi - lo) * ω i)

/-- Model of np.random.normal(loc, scale, size); `ω` is the stream of
underlying standard-normal draws. -/
def npRandomNormal (loc scale : ℝ) (size : Option ℕ) (ω : ℕ → ℝ) : PyV ℝ :=
  match size with
  | none => .scalar (loc + scale * ω 0)
  | some n => .arr ((List.range n).map fun i => loc + scale * ω i)

/-- The probability-distribution classes of probability.py as a closed
variant family.  A `GaussianUpperLimit` object is, by inheritance, a
`HalfNormalDistribution` whose state is only the derived signed standard
deviation and central value 0, so it is represented by the `halfNormal`
constructor (see `gaussianUpperLimitInit`); `limit` and
`confidence_level` are descriptive metadata with no behaviour.  The
`numerical` constructor stores what `NumericalDistribution.__init__`
stores: the grid `x`, the ordinate table `logy` of `log(y_norm)` behind
`self.logpdf_interp`, the abscissa table `cdf` behind `self.ppf_interp`,
and the central value. -/
inductive ProbabilityDistribution where
  | uniform (central_value half_range : ℝ)
  | delta (central_value : ℝ)
  | normal (central_value standard_deviation : ℝ)
  | asymmetricNormal (central_value right_deviation left_deviation : ℝ)
  | halfNormal (central_value standard_deviation : ℝ)
  | numerical (x : List ℝ) (logy : List EReal) (cdf : List ℝ) (central : ℝ)

namespace ProbabilityDistribution

/-- The attribute self.central_value. -/
def central_value : ProbabilityDistribution → ℝ
  | .uniform c _ => c
  | .delta c => c
  | .normal c _ => c
  | .asymmetricNormal c _ _ => c
  | .halfNormal c _ => c
  | .numerical _ _ _ c => c

/-- The attribute self.support as a pair (lower, upper); the HalfNormal
support is `sorted((c, c + 6 * sigma))` and the Numerical support is
`(x[0], x[-1])`. -/
def support : ProbabilityDistribution → ℝ × ℝ
  | .uniform c hr => (c - hr, c + hr)
  | .delta c => (c, c)
  | .normal c σ => (c - 6 * σ, c + 6 * σ)
  | .asymmetricNormal c rd ld => (c - 6 * ld, c + 6 * rd)
  | .halfNormal c σ => (min c (c + 6 * σ), max c (c + 6 * σ))
  | .numerical x _ _ _ => (x.headD 0, x.getLastD 0)

/-- isinstance(p, NormalDistribution); no class of the source other than
NormalDistribution itself is a subclass of it. -/
def isNormal : ProbabilityDistribution → Bool
  | .normal _ _ => true
  | _ => false

/-- isinstance(p, DeltaDistribution). -/
def isDelta : ProbabilityDistribution → Bool
  | .delta _ => true
  | _ => false

/-- isinstance(p, AsymmetricNormalDistribution). -/
def isAsymmetric : ProbabilityDistribution → Bool
  | .asymmetricNormal _ _ _ => true
  | _ => false

/-- isinstance(p, NumericalDistribution). -/
def isNumerical : ProbabilityDistribution → Bool
  | .numerical _ _ _ _ => true
  | _ => false

/-- The attribute self.standard_deviation, present on Normal and
HalfNormal objects.  The other variants have no such attribute; the
source only reads it behind an isinstance check, so those cases are
given a junk value. -/
def standard_deviation : ProbabilityDistribution → ℝ
  | .normal _ σ => σ
  | .halfNormal _ σ => σ
  | _ => 0

/-- Scalar log-density: the value of `logpdf` (through `_logpdf` where
one exists) at a single float, with `⊥` for `-np.inf`. -/
def logpdfScalar : ProbabilityDistribution → ℝ → EReal
  | .uniform c hr, t =>
    if t < c - hr ∨ c + hr ≤ t then (⊥ : EReal)
    else ((-Real.log (2 * hr) : ℝ) : EReal)
  | .delta c, t => if t = c then (0 : EReal) else (⊥ : EReal)
  | .normal c σ, t => ((normLogpdf t c σ : ℝ) : EReal)
  | .asymmetricNormal c rd ld, t =>
    let p_right := normPdf c c rd
    let p_left := normPdf c c ld
    if t < c then
      ((Real.log (2 * p_right / (p_left + p_right)) + normLogpdf t c ld : ℝ) : EReal)
    else
      ((Real.log (2 * p_left / (p_left + p_right)) + normLogpdf t c rd : ℝ) : EReal)
  | .halfNormal c σ, t =>
    if Real.sign σ * (t - c) < 0 then (⊥ : EReal)
    else ((Real.log 2 + normLogpdf t c |σ| : ℝ) : EReal)
  | .numerical x logy _ _, t => interpSegsE ⊥ (x.zip logy) t

/-- The `logpdf` method applied to a scalar or an array argument.  The
`np.vectorize`-based variants and the natively broadcasting ones map
elementwise; `DeltaDistribution.logpdf` evaluates
`if x == self.central_value:`, which on an array whose length is not one
raises numpy's ambiguous-truth-value error (a length-one array is
truthy if and only if its element is). -/
def logpdfPy : ProbabilityDistribution → PyV ℝ → Except String (PyV EReal)
  | .delta c, .arr xs =>
    match xs with
    | [t] => .ok (.scalar (if t = c then (0 : EReal) else (⊥ : EReal)))
    | _ => .error msgAmbiguous
  | d, .scalar t => .ok (.scalar (d.logpdfScalar t))
  | d, .arr xs => .ok (.arr (xs.map d.logpdfScalar))

/-- The `get_random` method.  `ωu` and `ωz` are the streams of uniform
and standard-normal draws consumed by np.random.  Note that the
AsymmetricNormal case never reads its `size` argument, exactly as in the
source. -/
def get_random : ProbabilityDistribution → Option ℕ → (ℕ → ℝ) → (ℕ → ℝ) → PyV ℝ
  | .uniform c hr, size, ωu, _ => npRandomUniform (c - hr) (c + hr) size ωu
  | .delta c, size, _, _ =>
    match size with
    | none => .scalar c
    | some n => .arr (List.replicate n c)
  | .normal c σ, size, _, ωz => npRandomNormal c σ size ωz
  | .asymmetricNormal c rd ld, _, ωu, ωz =>
    let r := ωu 0
    let a := |ld / (rd + ld)|
    if a < r then .scalar (c + |rd * ωz 0|)
    else .scalar (c - |ld * ωz 0|)
  | .halfNormal c σ, size, _, ωz =>
    match npRandomNormal 0 |σ| size ωz with
    | .scalar v => .scalar (c + Real.sign σ * |v|)
    | .arr vs => .arr (vs.map fun v => c + Real.sign σ * |v|)
  | .numerical x _ cdf _, size, ωu, _ =>
    match size with
    | none => .scalar (interpSegsR 0 (cdf.zip x) (ωu 0))
    | some n => .arr ((List.range n).map fun i => interpSegsR 0 (cdf.zip x) (ωu i))

end ProbabilityDistribution

open ProbabilityDistribution

/-- AsymmetricNormalDistribution.__init__, which raises unless both
deviations are nonnegative. -/
def asymmetricNormalInit (central half_right half_left : ℝ) :
    Except String ProbabilityDistribution :=
  if half_right < 0 ∨ half_left < 0 then .error msgDeviations
  else .ok (.asymmetricNormal central half_right half_left)

/-- GaussianUpperLimit.get_standard_deviation, documented as "Convert
the confidence level into a Gaussian standard deviation".  `ppf` is the
external scipy.stats.norm.ppf, the standard normal quantile function.
Note that the source multiplies the limit by the quantile. -/
def getStandardDeviation (ppf : ℝ → ℝ) (limit confidence_level : ℝ) : ℝ :=
  limit * ppf (0.5 + confidence_level / 2)

/-- GaussianUpperLimit.__init__: validates the confidence level, then
builds the inherited HalfNormalDistribution state with central value 0
and the derived signed standard deviation. -/
def gaussianUpperLimitInit (ppf : ℝ → ℝ) (limit confidence_level : ℝ) :
    Except String ProbabilityDistribution :=
  if 1 < confidence_level ∨ confidence_level < 0 then .error msgConfidence
  else .ok (.halfNormal 0 (getStandardDeviation ppf limit confidence_level))

/-- The central-value determination of NumericalDistribution.__init__ on
a nonempty grid `x0 :: xs`: an explicit central value must lie within
`[x[0], x[-1]]`; otherwise the mode `x[np.argmax(y)]` is used, raising
an IndexError when the argmax exceeds the grid length and a ValueError
on an empty `y`. -/
def numericalCentral (x0 : ℝ) (xs : List ℝ) (y : List ℝ) : Option ℝ → Except String ℝ
  | some cv =>
    if x0 ≤ cv ∧ cv ≤ xs.getLastD x0 then .ok cv
    else .error msgCentralRange
  | none =>
    if y.isEmpty then .error msgArgmaxEmpty
    else if npArgmax y < (x0 :: xs).length then .ok ((x0 :: xs).getD (npArgmax y) 0)
    else .error msgIndex

/-- NumericalDistribution.__init__.  An empty grid raises at `x[0]`; the
central value is determined by `numericalCentral`; the derived tables
are built; the two interp1d constructions require at least two points
and equal-length tables.  No validation of grid monotonicity is
performed anywhere (scipy's interp1d sorts an unsorted grid instead of
rejecting it). -/
def numericalInit (x y : List ℝ) (central? : Option ℝ) :
    Except String ProbabilityDistribution :=
  match x with
  | [] => .error msgIndex
  | x0 :: xs =>
    match numericalCentral x0 xs y central? with
    | .error e => .error e
    | .ok cv =>
      let xrange := xs.getLastD x0 - x0
      let binWidth := xrange / (x0 :: xs).length
      let ynorm := y.map fun v => v / y.sum / binWidth
      if (x0 :: xs).length < 2 ∨ y.length ≠ (x0 :: xs).length then .error msgInterpLen
      else
        .ok (.numerical (x0 :: xs) (ynorm.map npLog)
          (setFirstLast ((cumsum ynorm).map (· * binWidth)) 0 1) cv)

/-- NumericalDistribution.from_pd: lay `nsteps` grid points across the
support, evaluate the density there, and construct a
NumericalDistribution carrying the original central value. -/
def fromPd (pd : ProbabilityDistribution) (nsteps : ℕ := 1000) :
    Except String ProbabilityDistribution :=
  let x := linspace pd.support.1 pd.support.2 nsteps
  match pd.logpdfPy (.arr x) with
  | .error e => .error e
  | .ok (.scalar _) => .error msgLenMismatch
  | .ok (.arr lp) => numericalInit x (lp.map expE) (some pd.central_value)

/-- Evaluation of a list comprehension whose element expression may
raise: the first exception propagates. -/
def tryMap {α β : Type} (f : α → Except String β) : List α → Except String (List β)
  | [] => .ok []
  | a :: as =>
    match f a with
    | .error e => .error e
    | .ok b =>
      match tryMap f as with
      | .error e => .error e
      | .ok bs => .ok (b :: bs)

/-- The function _convolve_gaussians: assert that every input is a
NormalDistribution, read the first central value (an IndexError on an
empty list), assert that all central values agree, and combine the
sigmas in quadrature. -/
def convolveGaussians (pds : List ProbabilityDistribution) :
    Except String ProbabilityDistribution :=
  if ¬ ∀ p ∈ pds, p.isNormal = true then .error msgAllNormal
  else
    match pds with
    | [] => .error msgIndex
    | p :: _ =>
      if ¬ ∀ q ∈ pds, q.central_value = p.central_value then .error msgSameCentral
      else
        .ok (.normal p.central_value
          (Real.sqrt ((pds.map fun q => q.standard_deviation ^ 2).sum)))

/-- The function _convolve_numerical: assert that every input is a
NumericalDistribution, check the central values, build the common grid
spanning the union of the supports, evaluate each density there scaled
by the grid spacing, convolve the mass sequences pairwise, and wrap the
result. -/
def convolveNumerical (pds : List ProbabilityDistribution) (nsteps : ℕ := 1000) :
    Except String ProbabilityDistribution :=
  if ¬ ∀ p ∈ pds, p.isNumerical = true then .error msgAllNumerical
  else
    match pds with
    | [] => .error msgIndex
    | p :: rest =>
      if ¬ ∀ q ∈ pds, q.central_value = p.central_value then .error msgSameCentral
      else
        let lo := rest.foldl (fun m q => min m q.support.1) p.support.1
        let hi := rest.foldl (fun m q => max m q.support.2) p.support.2
        let step := (hi - lo) / ((nsteps : ℝ) - 1)
        let x := linspace lo hi nsteps
        let ys := (p :: rest).map fun q => x.map fun t => expE (q.logpdfScalar t) * step
        match ys with
        | [] => .error msgIndex
        | y0 :: yrest => numericalInit x (yrest.foldl fftconvolveSame y0) (some p.central_value)

/-- The function convolve_distributions.  A single input is returned
unchanged; the central values are read off the first input (the
isinstance float assert holds by construction in this univariate
embedding) and checked for agreement; the Normal-typed inputs are
combined analytically; Delta-typed inputs are dropped; if anything else
remains, everything left plus the combined Gaussian is discretized and
convolved numerically.  The identity-based set difference of the source
equals a multiset filter because list elements are distinct objects. -/
def convolveDistributions (pds : List ProbabilityDistribution) :
    Except String ProbabilityDistribution :=
  match pds with
  | [] => .error msgIndex
  | p :: _ =>
    if pds.length = 1 then .ok p
    else if ¬ ∀ q ∈ pds, q.central_value = p.central_value then .error msgSameCentral
    else
      match convolveGaussians (pds.filter isNormal) with
      | .error e => .error e
      | .ok gaussian =>
        let others := pds.filter fun q => !q.isNormal && !q.isDelta
        if others.isEmpty then .ok gaussian
        else
          match tryMap (fromPd · 1000) (others ++ [gaussian]) with
          | .error e => .error e
          | .ok numericals => convolveNumerical numericals 1000

/-- Model of scipy.stats.multivariate_normal.logpdf(x, mean, cov) in
exact real arithmetic. -/
def mvnLogpdf {n : ℕ} (x mean : Fin n → ℝ) (cov : Matrix (Fin n) (Fin n) ℝ) : ℝ :=
  -((n : ℝ) * Real.log (2 * Real.pi) + Real.log cov.det
      + Matrix.dotProduct (x - mean) (cov⁻¹.mulVec (x - mean))) / 2

/-- MultivariateNormalDistribution.logpdf: rescale the data and the mean
by the inverse marginal standard deviations, evaluate the library
log-density on the rescaled matrix, and add half the log of the
determinant ratio. -/
def MultivariateNormalDistribution.logpdf {n : ℕ} (central : Fin n → ℝ)
    (cov : Matrix (Fin n) (Fin n) ℝ) (x : Fin n → ℝ) : ℝ :=
  let err : Fin n → ℝ := fun i => Real.sqrt (cov i i)
  let scaled : Matrix (Fin n) (Fin n) ℝ := Matrix.of fun i j => cov i j / (err i * err j)
  let pdf_scaled := mvnLogpdf (fun i => x i / err i) (fun i => central i / err i) scaled
  pdf_scaled + Real.log (scaled.det / cov.det) / 2

/-- The invariant of claim C9: the central value lies in the closed
support interval. -/
def inSupport (d : ProbabilityDistribution) : Prop :=
  d.support.1 ≤ d.central_value ∧ d.central_value ≤ d.support.2

/-! ## Helper lemmas -/

theorem logpdfPy_scalar (d : ProbabilityDistribution) (t : ℝ) :
    d.logpdfPy (.scalar t) = .ok (.scalar (d.logpdfScalar t)) := by
  cases d <;> rfl

theorem logpdfPy_arr (d : ProbabilityDistribution) (hd : d.isDelta = false)
    (xs : List ℝ) : d.logpdfPy (.arr xs) = .ok (.arr (xs.map d.logpdfScalar)) := by
  cases d
  case delta c => simp [ProbabilityDistribution.isDelta] at hd
  all_goals rfl

theorem getD_mem (l : List ℝ) (i : ℕ) (hi : i < l.length) : l.getD i 0 ∈ l := by
  rw [List.getD_eq_getElem?_getD, List.getElem?_eq_getElem hi]
  exact List.getElem_mem hi

theorem getLastD_of_ne_nil (l : List ℝ) (d : ℝ) (h : l ≠ []) :
    l.getLastD d = l.getLast h := by
  rw [List.getLastD_eq_getLast?, List.getLast?_eq_getLast l h]
  rfl

theorem le_getLast_of_sorted (l : List ℝ) (hs : List.Sorted (· ≤ ·) l) (a : ℝ)
    (ha : a ∈ l) (hne : l ≠ []) : a ≤ l.getLast hne := by
  induction l with
  | nil => cases ha
  | cons b bs ih =>
    cases bs with
    | nil =>
      obtain rfl : a = b := by simpa using ha
      rfl
    | cons c cs =>
      rw [List.getLast_cons (l := c :: cs) (by simp)]
      rcases List.mem_cons.mp ha with rfl | hmem
      · exact (List.sorted_cons.mp hs).1 _ (List.getLast_mem (by simp))
      · exact ih (List.sorted_cons.mp hs).2 hmem (by simp)

theorem argmax_foldl_lt (n : ℕ) (l : List (ℕ × ℝ)) (init : ℕ × ℝ)
    (hinit : init.1 < n) (hl : ∀ p ∈ l, p.1 < n) :
    (l.foldl (fun best iv => if best.2 < iv.2 then iv else best) init).1 < n := by
  induction l generalizing init with
  | nil => exact hinit
  | cons a as ih =>
    simp only [List.foldl_cons]
    apply ih
    · split
      · exact hl a (List.mem_cons_self _ _)
      · exact hinit
    · exact fun p hp => hl p (List.mem_cons_of_mem _ hp)

theorem npArgmax_lt (y : List ℝ) (hy : y ≠ []) : npArgmax y < y.length := by
  cases y with
  | nil => exact absurd rfl hy
  | cons y0 ys =>
    unfold npArgmax
    apply argmax_foldl_lt
    · simp
    · intro p hp
      rw [List.mem_enum_iff_getElem?] at hp
      exact (List.getElem?_eq_some.mp hp).1

theorem numericalCentral_some (x0 : ℝ) (xs y : List ℝ) (cv : ℝ)
    (h1 : x0 ≤ cv) (h2 : cv ≤ xs.getLastD x0) :
    numericalCentral x0 xs y (some cv) = .ok cv := by
  simp only [numericalCentral]
  rw [if_pos ⟨h1, h2⟩]

theorem numericalCentral_none (x0 : ℝ) (xs y : List ℝ) (hy : y ≠ [])
    (h : npArgmax y < (x0 :: xs).length) :
    numericalCentral x0 xs y none = .ok ((x0 :: xs).getD (npArgmax y) 0) := by
  simp only [numericalCentral]
  rw [if_neg (by simpa using hy), if_pos h]

theorem numericalCentral_ok_inv (x0 : ℝ) (xs y : List ℝ) (cv? : Option ℝ) (cv : ℝ)
    (h : numericalCentral x0 xs y cv? = .ok cv) :
    (cv? = some cv ∧ x0 ≤ cv ∧ cv ≤ xs.getLastD x0) ∨
    (cv? = none ∧ npArgmax y < (x0 :: xs).length ∧
      cv = (x0 :: xs).getD (npArgmax y) 0) := by
  cases cv? with
  | some c =>
    left
    simp only [numericalCentral] at h
    split at h
    next hcond =>
      cases h
      exact ⟨rfl, hcond⟩
    next => cases h
  | none =>
    right
    simp only [numericalCentral] at h
    split at h
    next => cases h
    next =>
      split at h
      next hlt =>
        cases h
        exact ⟨rfl, hlt, rfl⟩
      next => cases h

theorem numericalInit_ok_of_central (x y : List ℝ) (cv? : Option ℝ) (cv : ℝ)
    (hx : 2 ≤ x.length) (hy : y.length = x.length)
    (hc : ∀ x0 xs, x = x0 :: xs → numericalCentral x0 xs y cv? = .ok cv) :
    ∃ logy cdf, numericalInit x y cv? = .ok (.numerical x logy cdf cv) := by
  cases x with
  | nil => simp at hx
  | cons x0 xs =>
    have hcc := hc x0 xs rfl
    have hcond : ¬((x0 :: xs).length < 2 ∨ y.length ≠ (x0 :: xs).length) := by
      push_neg
      exact ⟨hx, hy⟩
    simp only [numericalInit, hcc, if_neg hcond]
    exact ⟨_, _, rfl⟩

theorem numericalInit_ok_inv (x y : List ℝ) (cv? : Option ℝ) (d : ProbabilityDistribution)
    (h : numericalInit x y cv? = .ok d) :
    ∃ x0 xs cv logy cdf, x = x0 :: xs ∧ numericalCentral x0 xs y cv? = .ok cv ∧
      2 ≤ x.length ∧ y.length = x.length ∧ d = .numerical (x0 :: xs) logy cdf cv := by
  cases x with
  | nil => simp [numericalInit] at h
  | cons x0 xs =>
    simp only [numericalInit] at h
    cases hc : numericalCentral x0 xs y cv? with
    | error e => rw [hc] at h; cases h
    | ok cv =>
      rw [hc] at h
      dsimp only at h
      split at h
      next => cases h
      next hcond =>
        push_neg at hcond
        cases h
        exact ⟨x0, xs, cv, _, _, rfl, hc, hcond.1, hcond.2, rfl⟩

theorem linspace_length (a b : ℝ) (n : ℕ) : (linspace a b n).length = n := by
  rw [linspace, List.length_map, List.length_range]

theorem linspace_headD (a b : ℝ) (n : ℕ) (h : 1 ≤ n) : (linspace a b n).headD 0 = a := by
  obtain ⟨m, rfl⟩ : ∃ m, n = m + 1 := ⟨n - 1, by omega⟩
  rw [linspace, List.range_succ_eq_map]
  simp

theorem linspace_getLastD (a b : ℝ) (n : ℕ) (h : 2 ≤ n) :
    (linspace a b n).getLastD 0 = b := by
  obtain ⟨m, rfl⟩ : ∃ m, n = m + 1 := ⟨n - 1, by omega⟩
  rw [linspace, List.range_succ, List.map_append, List.map_singleton]
  rw [List.getLastD_concat]
  have hm : ((m : ℝ)) ≠ 0 := Nat.cast_ne_zero.mpr (by omega)
  push_cast
  rw [add_sub_cancel_right, mul_div_assoc, div_self hm, mul_one]
  ring

theorem fftconvolveSame_length (a b : List ℝ) :
    (fftconvolveSame a b).length = a.length := by
  simp [fftconvolveSame]

theorem foldl_fftconvolveSame_length (ys : List (List ℝ)) (y0 : List ℝ) :
    (ys.foldl fftconvolveSame y0).length = y0.length := by
  induction ys generalizing y0 with
  | nil => rfl
  | cons a as ih => rw [List.foldl_cons, ih, fftconvolveSame_length]

theorem foldl_min_le_init (l : List ProbabilityDistribution) (init : ℝ) :
    l.foldl (fun m q => min m q.support.1) init ≤ init := by
  induction l generalizing init with
  | nil => exact le_refl _
  | cons a as ih => exact le_trans (ih _) (min_le_left _ _)

theorem foldl_max_ge_init (l : List ProbabilityDistribution) (init : ℝ) :
    init ≤ l.foldl (fun m q => max m q.support.2) init := by
  induction l generalizing init with
  | nil => exact le_refl _
  | cons a as ih => exact le_trans (le_max_left _ _) (ih _)

theorem tryMap_ok_of_forall {α β : Type} (f : α → Except String β) (P : β → Prop)
    (l : List α) (h : ∀ a ∈ l, ∃ b, f a = .ok b ∧ P b) :
    ∃ bs, tryMap f l = .ok bs ∧ bs.length = l.length ∧ ∀ b ∈ bs, P b := by
  induction l with
  | nil => exact ⟨[], rfl, rfl, by simp⟩
  | cons a as ih =>
    obtain ⟨b, hfa, hPb⟩ := h a (List.mem_cons_self _ _)
    obtain ⟨bs, hbs, hlen, hP⟩ := ih fun q hq => h q (List.mem_cons_of_mem _ hq)
    refine ⟨b :: bs, ?_, by simp [hlen], ?_⟩
    · simp only [tryMap, hfa, hbs]
    · intro q hq
      rcases List.mem_cons.mp hq with rfl | hqm
      · exact hPb
      · exact hP _ hqm

theorem fromPd_ok (p : ProbabilityDistribution) (hd : p.isDelta = false)
    (hlo : p.support.1 ≤ p.central_value) (hhi : p.central_value ≤ p.support.2) :
    ∃ logy cdf, fromPd p 1000
      = .ok (.numerical (linspace p.support.1 p.support.2 1000) logy cdf
          p.central_value) := by
  simp only [fromPd]
  rw [logpdfPy_arr p hd]
  dsimp only
  apply numericalInit_ok_of_central
  · rw [linspace_length]
    norm_num
  · simp [linspace_length]
  · intro x0 xs heq
    apply numericalCentral_some
    · have hh : (linspace p.support.1 p.support.2 1000).headD 0 = p.support.1 :=
        linspace_headD _ _ _ (by norm_num)
      rw [heq, List.headD_cons] at hh
      rw [hh]
      exact hlo
    · have hl : (linspace p.support.1 p.support.2 1000).getLastD 0 = p.support.2 :=
        linspace_getLastD _ _ _ (by norm_num)
      rw [heq, List.getLastD_cons] at hl
      rw [hl]
      exact hhi

theorem convolveGaussians_ok (p : ProbabilityDistribution)
    (rest : List ProbabilityDistribution)
    (hnorm : ∀ q ∈ p :: rest, q.isNormal = true)
    (hcv : ∀ q ∈ p :: rest, q.central_value = p.central_value) :
    convolveGaussians (p :: rest)
      = .ok (.normal p.central_value
          (Real.sqrt (((p :: rest).map fun q => q.standard_deviation ^ 2).sum))) := by
  simp only [convolveGaussians]
  rw [if_neg (not_not_intro hnorm)]
  rw [if_neg (not_not_intro hcv)]

theorem convolveDistributions_cons (p : ProbabilityDistribution)
    (rest : List ProbabilityDistribution) (hne : rest ≠ [])
    (hcv : ∀ q ∈ p :: rest, q.central_value = p.central_value) :
    convolveDistributions (p :: rest)
      = match convolveGaussians ((p :: rest).filter isNormal) with
        | .error e => .error e
        | .ok gaussian =>
          if ((p :: rest).filter fun q => !q.isNormal && !q.isDelta).isEmpty then
            .ok gaussian
          else
            match tryMap (fromPd · 1000)
                (((p :: rest).filter fun q => !q.isNormal && !q.isDelta)
                  ++ [gaussian]) with
            | .error e => .error e
            | .ok numericals => convolveNumerical numericals 1000 := by
  simp only [convolveDistributions]
  rw [if_neg (by simpa [List.length_eq_zero] using hne),
    if_neg (not_not_intro hcv)]

theorem convolveDistributions_cons_nothers (p : ProbabilityDistribution)
    (rest : List ProbabilityDistribution) (hne : rest ≠ [])
    (hcv : ∀ q ∈ p :: rest, q.central_value = p.central_value)
    (g : ProbabilityDistribution)
    (hg : convolveGaussians ((p :: rest).filter isNormal) = .ok g)
    (hoth : ((p :: rest).filter fun q => !q.isNormal && !q.isDelta).isEmpty = true) :
    convolveDistributions (p :: rest) = .ok g := by
  rw [convolveDistributions_cons p rest hne hcv, hg]
  dsimp only
  rw [if_pos hoth]

theorem convolveDistributions_cons_others (p : ProbabilityDistribution)
    (rest : List ProbabilityDistribution) (hne : rest ≠ [])
    (hcv : ∀ q ∈ p :: rest, q.central_value = p.central_value)
    (g : ProbabilityDistribution)
    (hg : convolveGaussians ((p :: rest).filter isNormal) = .ok g)
    (hoth : ((p :: rest).filter fun q => !q.isNormal && !q.isDelta).isEmpty = false)
    (bs : List ProbabilityDistribution)
    (hbs : tryMap (fromPd · 1000)
        (((p :: rest).filter fun q => !q.isNormal && !q.isDelta) ++ [g]) = .ok bs) :
    convolveDistributions (p :: rest) = convolveNumerical bs 1000 := by
  rw [convolveDistributions_cons p rest hne hcv, hg]
  dsimp only
  rw [if_neg (by rw [hoth]; exact Bool.false_ne_true), hbs]

theorem map_stddev_sq_map_normal (c : ℝ) (σs : List ℝ) :
    ((σs.map (ProbabilityDistribution.normal c)).map
      fun q => q.standard_deviation ^ 2) = σs.map fun σ => σ ^ 2 := by
  induction σs with
  | nil => rfl
  | cons a as ih =>
    rw [List.map_cons, List.map_cons, List.map_cons, ih]
    rfl

theorem convolveNumerical_ok (p : ProbabilityDistribution)
    (rest : List ProbabilityDistribution) (c : ℝ)
    (hnum : ∀ q ∈ p :: rest, q.isNumerical = true)
    (hcv : ∀ q ∈ p :: rest, q.central_value = c)
    (hstraddle : ∀ q ∈ p :: rest, q.support.1 ≤ c ∧ c ≤ q.support.2) :
    ∃ d, convolveNumerical (p :: rest) 1000 = .ok d ∧ d.central_value = c := by
  have hcc : ∀ q ∈ p :: rest, q.central_value = p.central_value := by
    intro q hq
    rw [hcv q hq, hcv p (List.mem_cons_self _ _)]
  have hpc := hcv p (List.mem_cons_self _ _)
  simp only [convolveNumerical]
  rw [if_neg (not_not_intro hnum)]
  rw [if_neg (not_not_intro hcc)]
  simp only [List.map_cons]
  have hcgoal : ∀ x0 : ℝ, ∀ xs : List ℝ,
      linspace (rest.foldl (fun m q => min m q.support.1) p.support.1)
        (rest.foldl (fun m q => max m q.support.2) p.support.2) 1000 = x0 :: xs →
      numericalCentral x0 xs
        ((rest.map fun q =>
            (linspace (rest.foldl (fun m q => min m q.support.1) p.support.1)
              (rest.foldl (fun m q => max m q.support.2) p.support.2) 1000).map
              fun t => expE (q.logpdfScalar t) * ((rest.foldl (fun m q => max m q.support.2) p.support.2 -
                rest.foldl (fun m q => min m q.support.1) p.support.1) / ((1000 : ℝ) - 1))).foldl
          fftconvolveSame
          ((linspace (rest.foldl (fun m q => min m q.support.1) p.support.1)
              (rest.foldl (fun m q => max m q.support.2) p.support.2) 1000).map
              fun t => expE (p.logpdfScalar t) * ((rest.foldl (fun m q => max m q.support.2) p.support.2 -
                rest.foldl (fun m q => min m q.support.1) p.support.1) / ((1000 : ℝ) - 1))))
        (some p.central_value) = .ok p.central_value := by
    intro x0 xs heq
    apply numericalCentral_some
    · have hh := linspace_headD (rest.foldl (fun m q => min m q.support.1) p.support.1)
        (rest.foldl (fun m q => max m q.support.2) p.support.2) 1000 (by norm_num)
      rw [heq, List.headD_cons] at hh
      rw [hh]
      calc rest.foldl (fun m q => min m q.support.1) p.support.1
          ≤ p.support.1 := foldl_min_le_init _ _
        _ ≤ p.central_value := hpc ▸ (hstraddle p (List.mem_cons_self _ _)).1
    · have hl := linspace_getLastD (rest.foldl (fun m q => min m q.support.1) p.support.1)
        (rest.foldl (fun m q => max m q.support.2) p.support.2) 1000 (by norm_num)
      rw [heq, List.getLastD_cons] at hl
      rw [hl]
      calc p.central_value ≤ p.support.2 := hpc ▸ (hstraddle p (List.mem_cons_self _ _)).2
        _ ≤ rest.foldl (fun m q => max m q.support.2) p.support.2 := foldl_max_ge_init _ _
  obtain ⟨logy, cdf, hok⟩ := numericalInit_ok_of_central _ _ _ _
    (by rw [linspace_length]; norm_num)
    (by rw [foldl_fftconvolveSame_length, List.length_map, linspace_length])
    hcgoal
  exact ⟨_, hok, hpc⟩

theorem mvn_rescale (n : ℕ) (central x err : Fin n → ℝ)
    (cov : Matrix (Fin n) (Fin n) ℝ)
    (herrne : ∀ i, err i ≠ 0) (hdetcov : cov.det ≠ 0) :
    mvnLogpdf (fun i => x i / err i) (fun i => central i / err i)
        (Matrix.of fun i j => cov i j / (err i * err j))
      + Real.log ((Matrix.of fun i j => cov i j / (err i * err j)).det / cov.det) / 2
    = mvnLogpdf x central cov := by
  have hscaled : (Matrix.of fun i j => cov i j / (err i * err j))
      = Matrix.diagonal (fun i => (err i)⁻¹) * cov
        * Matrix.diagonal (fun i => (err i)⁻¹) := by
    ext i j
    rw [Matrix.mul_diagonal, Matrix.diagonal_mul, Matrix.of_apply]
    rw [div_eq_mul_inv, mul_inv]
    ring
  have hprodne : (∏ i, (err i)⁻¹) ≠ 0 :=
    Finset.prod_ne_zero_iff.mpr fun i _ => inv_ne_zero (herrne i)
  have hdetscaled : (Matrix.diagonal (fun i => (err i)⁻¹) * cov
        * Matrix.diagonal (fun i => (err i)⁻¹)).det
      = (∏ i, (err i)⁻¹) * cov.det * (∏ i, (err i)⁻¹) := by
    rw [Matrix.det_mul, Matrix.det_mul, Matrix.det_diagonal]
  have hdetscaledne : (Matrix.diagonal (fun i => (err i)⁻¹) * cov
      * Matrix.diagonal (fun i => (err i)⁻¹)).det ≠ 0 := by
    rw [hdetscaled]
    exact mul_ne_zero (mul_ne_zero hprodne hdetcov) hprodne
  have hEinv : (Matrix.diagonal (fun i => (err i)⁻¹))⁻¹ = Matrix.diagonal err := by
    apply Matrix.inv_eq_right_inv
    rw [Matrix.diagonal_mul_diagonal]
    rw [show (fun i => (err i)⁻¹ * err i) = fun _ => (1 : ℝ) from
      funext fun i => inv_mul_cancel₀ (herrne i)]
    exact Matrix.diagonal_one
  have hsinv : (Matrix.diagonal (fun i => (err i)⁻¹) * cov
        * Matrix.diagonal (fun i => (err i)⁻¹))⁻¹
      = Matrix.diagonal err * cov⁻¹ * Matrix.diagonal err := by
    rw [Matrix.mul_inv_rev, Matrix.mul_inv_rev, hEinv, Matrix.mul_assoc]
  have hv : ((fun i => x i / err i) - fun i => central i / err i)
      = fun i => (err i)⁻¹ * ((x - central) i) := by
    funext i
    simp only [Pi.sub_apply, div_eq_mul_inv]
    ring
  have hDE : (Matrix.diagonal err).mulVec (fun i => (err i)⁻¹ * ((x - central) i))
      = x - central := by
    funext i
    rw [Matrix.mulVec_diagonal]
    rw [← mul_assoc, mul_inv_cancel₀ (herrne i), one_mul]
  have hquad : Matrix.dotProduct ((fun i => x i / err i) - fun i => central i / err i)
      ((Matrix.diagonal (fun i => (err i)⁻¹) * cov
          * Matrix.diagonal (fun i => (err i)⁻¹))⁻¹.mulVec
        ((fun i => x i / err i) - fun i => central i / err i))
      = Matrix.dotProduct (x - central) (cov⁻¹.mulVec (x - central)) := by
    rw [hv, hsinv]
    rw [← Matrix.mulVec_mulVec, ← Matrix.mulVec_mulVec, hDE]
    unfold Matrix.dotProduct
    apply Finset.sum_congr rfl
    intro i _
    rw [Matrix.mulVec_diagonal]
    have hcancel : (err i)⁻¹ * err i = 1 := inv_mul_cancel₀ (herrne i)
    calc (err i)⁻¹ * ((x - central) i)
          * (err i * cov⁻¹.mulVec (x - central) i)
        = ((err i)⁻¹ * err i)
          * ((x - central) i * cov⁻¹.mulVec (x - central) i) := by ring
      _ = (x - central) i * cov⁻¹.mulVec (x - central) i := by rw [hcancel, one_mul]
  simp only [mvnLogpdf]
  rw [hscaled, hquad]
  rw [Real.log_div hdetscaledne hdetcov]
  ring

/-! ## Claim theorems -/

/-- C1 (code bug): GaussianUpperLimit.get_standard_deviation MULTIPLIES the
limit by the standard normal quantile at 0.5 + confidence_level/2 instead
of dividing by it.  With the quantile Φ⁻¹(0.975) = 1.959964, the call for
limit 10 at confidence level 0.95 returns 10 · 1.959964 = 19.59964, not
the 10 / 1.959964 ≈ 5.102 that the spec derives and that the statistics
of a Gaussian upper limit requires. -/
theorem getStandardDeviation_multiplies :
    getStandardDeviation (fun _ => 1.959964) 10 0.95 = 19.59964 ∧
    getStandardDeviation (fun _ => 1.959964) 10 0.95 ≠ 10 / 1.959964 := by
  constructor <;> norm_num [getStandardDeviation]

/-- C7 counterexample: at the RIGHT endpoint of its support the Uniform
log-density is -∞, not -log(2·half_range): the source tests
`x >= self.range[1]`, so the right endpoint is excluded from the
constant-density region, contradicting the claim's "including both
endpoints". -/
theorem uniform_logpdf_right_endpoint :
    (ProbabilityDistribution.uniform 0 1).logpdfScalar 1 = ⊥ ∧
    (((-Real.log (2 * 1) : ℝ)) : EReal) ≠ (⊥ : EReal) := by
  refine ⟨?_, EReal.coe_ne_bot _⟩
  norm_num [ProbabilityDistribution.logpdfScalar]

/-- C7 (amended): for half_range > 0, Uniform log-density equals
-log(2·half_range) on the half-open interval [c - hr, c + hr) — the left
endpoint included, the right endpoint EXCLUDED — and is -∞ at and beyond
the right endpoint as well as below the left one. -/
theorem uniform_logpdf_cases (c hr x : ℝ) (hhr : 0 < hr) :
    ((c - hr ≤ x ∧ x < c + hr) →
      (ProbabilityDistribution.uniform c hr).logpdfScalar x
        = (((-Real.log (2 * hr) : ℝ)) : EReal)) ∧
    ((x < c - hr ∨ c + hr ≤ x) →
      (ProbabilityDistribution.uniform c hr).logpdfScalar x = ⊥) := by
  simp only [ProbabilityDistribution.logpdfScalar]
  constructor
  · rintro ⟨h1, h2⟩
    rw [if_neg]
    push_neg
    exact ⟨h1, h2⟩
  · intro h
    rw [if_pos h]

/-- C7 witness: Uniform(0, 1) evaluated inside the support. -/
theorem uniform_logpdf_cases_witness :
    (ProbabilityDistribution.uniform 0 1).logpdfScalar 0
      = (((-Real.log (2 * 1) : ℝ)) : EReal) :=
  (uniform_logpdf_cases 0 1 0 (by norm_num)).1 ⟨by norm_num, by norm_num⟩

/-- C10: on a same-central-value collection with two members and no
Normal-typed member, convolve_distributions reaches _convolve_gaussians
on the empty Gaussian group, whose first-element access raises an
IndexError, so no combined distribution is returned. -/
theorem convolve_no_gaussian_aborts :
    convolveDistributions
      [ProbabilityDistribution.uniform 0 1, ProbabilityDistribution.uniform 0 2]
      = .error msgIndex := by
  norm_num [convolveDistributions, convolveGaussians,
    ProbabilityDistribution.central_value, ProbabilityDistribution.isNormal]

/-- C5 counterexample: DeltaDistribution.logpdf applied to the
two-element sequence [4, 6] raises numpy's ambiguous-truth-value error
at `if x == self.central_value:` instead of returning an element-wise
result of matching shape. -/
theorem delta_logpdf_array_raises :
    (ProbabilityDistribution.delta 5).logpdfPy (.arr [4, 6]) = .error msgAmbiguous := rfl

/-- C5 (amended): every univariate variant other than Delta accepts a
single value or a sequence, mapping element-wise with matching shape and
never raising (structurally zero density giving -∞ through the scalar
log-density); DeltaDistribution.logpdf handles only single values, and
applied to a sequence whose length is not one it raises. -/
theorem logpdf_shape (d : ProbabilityDistribution) (hd : d.isDelta = false) :
    (∀ t : ℝ, d.logpdfPy (.scalar t) = .ok (.scalar (d.logpdfScalar t))) ∧
    (∀ xs : List ℝ, d.logpdfPy (.arr xs) = .ok (.arr (xs.map d.logpdfScalar))) ∧
    (∀ c t : ℝ, (ProbabilityDistribution.delta c).logpdfPy (.scalar t)
      = .ok (.scalar ((ProbabilityDistribution.delta c).logpdfScalar t))) ∧
    (∀ c : ℝ, ∀ xs : List ℝ, xs.length ≠ 1 →
      (ProbabilityDistribution.delta c).logpdfPy (.arr xs) = .error msgAmbiguous) := by
  refine ⟨fun t => logpdfPy_scalar d t, fun xs => logpdfPy_arr d hd xs,
    fun c t => logpdfPy_scalar _ t, fun c xs hxs => ?_⟩
  cases xs with
  | nil => rfl
  | cons t rest =>
    cases rest with
    | nil => simp at hxs
    | cons u rest2 => rfl

/-- C5 witness: Uniform(0, 1) maps the sequence [0, 2] element-wise. -/
theorem logpdf_shape_witness :
    (ProbabilityDistribution.uniform 0 1).logpdfPy (.arr [0, 2])
      = .ok (.arr ([0, 2].map (ProbabilityDistribution.uniform 0 1).logpdfScalar)) :=
  (logpdf_shape (ProbabilityDistribution.uniform 0 1) rfl).2.1 [0, 2]

/-- C6 counterexample: AsymmetricNormalDistribution.get_random called
with count 2 returns a bare scalar — the method never reads its size
argument — so the result is not a length-2 sequence. -/
theorem asymmetric_get_random_ignores_size :
    ((ProbabilityDistribution.asymmetricNormal 0 1 1).get_random (some 2)
      (fun _ => 0) (fun _ => 0)).isArr = false := by
  simp only [ProbabilityDistribution.get_random]
  split <;> rfl

/-- C6 (amended): every univariate variant except AsymmetricNormal
returns a length-n sequence from get_random with count n and a scalar
when the count is omitted; AsymmetricNormalDistribution.get_random
returns a single scalar whatever its size argument is. -/
theorem get_random_shape (d : ProbabilityDistribution) (hd : d.isAsymmetric = false)
    (n : ℕ) (ωu ωz : ℕ → ℝ) :
    (∃ l : List ℝ, d.get_random (some n) ωu ωz = .arr l ∧ l.length = n) ∧
    (∃ v : ℝ, d.get_random none ωu ωz = .scalar v) ∧
    (∀ c rd ld : ℝ, ∀ size : Option ℕ, ∃ v : ℝ,
      (ProbabilityDistribution.asymmetricNormal c rd ld).get_random size ωu ωz
        = .scalar v) := by
  refine ⟨?_, ?_, ?_⟩
  · cases d
    case asymmetricNormal c rd ld => simp [ProbabilityDistribution.isAsymmetric] at hd
    case uniform c hr => exact ⟨_, rfl, by simp [npRandomUniform]⟩
    case delta c => exact ⟨_, rfl, List.length_replicate _ _⟩
    case normal c σ => exact ⟨_, rfl, by simp [npRandomNormal]⟩
    case halfNormal c σ => exact ⟨_, rfl, by simp [npRandomNormal]⟩
    case numerical x logy cdf c => exact ⟨_, rfl, by simp⟩
  · cases d
    case asymmetricNormal c rd ld => simp [ProbabilityDistribution.isAsymmetric] at hd
    all_goals exact ⟨_, rfl⟩
  · intro c rd ld size
    simp only [ProbabilityDistribution.get_random]
    split <;> exact ⟨_, rfl⟩

/-- C3: a collection of Normal-typed distributions with common central
value c and positive sigmas convolves to the Normal with central value c
and standard deviation the square root of the sum of the squared sigmas
(a single input is returned unchanged, which agrees since
sqrt(s^2) = s for positive s). -/
theorem convolve_normals (c : ℝ) (σs : List ℝ) (hne : σs ≠ [])
    (hpos : ∀ σ ∈ σs, 0 < σ) :
    convolveDistributions (σs.map (ProbabilityDistribution.normal c))
      = .ok (.normal c (Real.sqrt ((σs.map fun σ => σ ^ 2).sum))) := by
  cases σs with
  | nil => exact absurd rfl hne
  | cons σ0 σrest =>
    cases σrest with
    | nil =>
      have h0 : (0 : ℝ) ≤ σ0 := (hpos σ0 (List.mem_cons_self _ _)).le
      have hs : (([σ0] : List ℝ).map fun σ => σ ^ 2).sum = σ0 ^ 2 := by simp
      rw [hs, Real.sqrt_sq h0]
      simp [convolveDistributions]
    | cons σ1 σrest2 =>
      have halln : ∀ q ∈ (σ0 :: σ1 :: σrest2).map (ProbabilityDistribution.normal c),
          q.isNormal = true := by
        intro q hq
        obtain ⟨σ, _, rfl⟩ := List.mem_map.mp hq
        rfl
      have hcp : ∀ q ∈ (σ0 :: σ1 :: σrest2).map (ProbabilityDistribution.normal c),
          q.central_value
            = (ProbabilityDistribution.normal c σ0).central_value := by
        intro q hq
        obtain ⟨σ, _, rfl⟩ := List.mem_map.mp hq
        rfl
      rw [List.map_cons]
      have hfil : ((ProbabilityDistribution.normal c σ0) ::
            (σ1 :: σrest2).map (ProbabilityDistribution.normal c)).filter isNormal
          = (ProbabilityDistribution.normal c σ0) ::
            (σ1 :: σrest2).map (ProbabilityDistribution.normal c) :=
        List.filter_eq_self.mpr (by rw [← List.map_cons]; exact halln)
      have hg : convolveGaussians (((ProbabilityDistribution.normal c σ0) ::
            (σ1 :: σrest2).map (ProbabilityDistribution.normal c)).filter isNormal)
          = .ok (.normal (ProbabilityDistribution.normal c σ0).central_value
              (Real.sqrt ((((ProbabilityDistribution.normal c σ0) ::
                (σ1 :: σrest2).map (ProbabilityDistribution.normal c)).map
                fun q => q.standard_deviation ^ 2).sum))) := by
        rw [hfil]
        exact convolveGaussians_ok _ _ (by rw [← List.map_cons]; exact halln)
          (by rw [← List.map_cons]; exact hcp)
      have hothers : (((ProbabilityDistribution.normal c σ0) ::
            (σ1 :: σrest2).map (ProbabilityDistribution.normal c)).filter
            fun q => !q.isNormal && !q.isDelta) = [] := by
        rw [List.filter_eq_nil_iff]
        intro q hq
        rw [← List.map_cons] at hq
        rw [halln q hq]
        simp
      rw [convolveDistributions_cons_nothers _ _ (by simp)
        (by rw [← List.map_cons]; exact hcp) _ hg (by rw [hothers]; rfl)]
      rw [show (((ProbabilityDistribution.normal c σ0) ::
            (σ1 :: σrest2).map (ProbabilityDistribution.normal c)).map
            fun q => q.standard_deviation ^ 2)
          = (σ0 :: σ1 :: σrest2).map (fun σ => σ ^ 2) from by
        rw [← List.map_cons]
        exact map_stddev_sq_map_normal c _]
      rfl

/-- C3 witness: convolve([Normal(0,3), Normal(0,4)]) = Normal(0,5). -/
theorem convolve_normals_witness :
    convolveDistributions
      [ProbabilityDistribution.normal 0 3, ProbabilityDistribution.normal 0 4]
      = .ok (.normal 0 5) := by
  have h := convolve_normals 0 [3, 4] (by simp)
    (by intro σ hσ; fin_cases hσ <;> norm_num)
  have h25 : ((([3, 4] : List ℝ)).map fun σ => σ ^ 2).sum = 25 := by norm_num
  rw [h25] at h
  rw [show Real.sqrt 25 = 5 by
    rw [show (25 : ℝ) = 5 ^ 2 by norm_num, Real.sqrt_sq (by norm_num)]] at h
  simpa using h

/-- C2 counterexample: the two-member collection
[Uniform(0,3), Uniform(0,4)] satisfies the claim's precondition (each a
univariate distribution, both with scalar central value 0), yet
convolve_distributions aborts with an IndexError instead of returning a
combined distribution. -/
theorem convolve_two_uniforms_abort :
    convolveDistributions
      [ProbabilityDistribution.uniform 0 3, ProbabilityDistribution.uniform 0 4]
      = .error msgIndex := by
  norm_num [convolveDistributions, convolveGaussians,
    ProbabilityDistribution.central_value, ProbabilityDistribution.isNormal]

/-- C2 (amended): convolve_distributions on a non-empty collection of
univariate distributions sharing one scalar central value, each member's
central value lying within its support, returns one distribution whose
central value is the shared one PROVIDED the collection is a singleton or
contains at least one Normal-typed member; on two or more members with no
Normal-typed member the Gaussian combination step aborts on the empty
Gaussian group (see the counterexample). -/
theorem convolve_same_central (pds : List ProbabilityDistribution) (c : ℝ)
    (hne : pds ≠ [])
    (hcv : ∀ p ∈ pds, p.central_value = c)
    (hsupp : ∀ p ∈ pds, p.support.1 ≤ c ∧ c ≤ p.support.2)
    (hnorm : pds.length = 1 ∨ ∃ p ∈ pds, p.isNormal = true) :
    ∃ d, convolveDistributions pds = .ok d ∧ d.central_value = c := by
  cases pds with
  | nil => exact absurd rfl hne
  | cons p rest =>
    cases rest with
    | nil =>
      exact ⟨p, by simp [convolveDistributions], hcv p (List.mem_cons_self _ _)⟩
    | cons p1 rest1 =>
      have hex : ∃ q ∈ p :: p1 :: rest1, q.isNormal = true := by
        rcases hnorm with hlen | hex
        · simp at hlen
        · exact hex
      have hcp : ∀ q ∈ p :: p1 :: rest1, q.central_value = p.central_value := by
        intro q hq
        rw [hcv q hq, hcv p (List.mem_cons_self _ _)]
      obtain ⟨g0, grest, hgcons⟩ : ∃ g0 grest,
          (p :: p1 :: rest1).filter isNormal = g0 :: grest := by
        obtain ⟨q, hq, hqn⟩ := hex
        have hmemf : q ∈ (p :: p1 :: rest1).filter isNormal :=
          List.mem_filter.mpr ⟨hq, hqn⟩
        cases hgsl : (p :: p1 :: rest1).filter isNormal with
        | nil => rw [hgsl] at hmemf; cases hmemf
        | cons a b => exact ⟨a, b, rfl⟩
      have hgmem : ∀ q ∈ g0 :: grest, q ∈ p :: p1 :: rest1 := by
        intro q hq
        rw [← hgcons] at hq
        exact (List.mem_filter.mp hq).1
      have hgnorm : ∀ q ∈ g0 :: grest, q.isNormal = true := by
        intro q hq
        rw [← hgcons] at hq
        exact (List.mem_filter.mp hq).2
      have hg0c : g0.central_value = c := hcv _ (hgmem g0 (List.mem_cons_self _ _))
      have hgcv : ∀ q ∈ g0 :: grest, q.central_value = g0.central_value := by
        intro q hq
        rw [hcv q (hgmem q hq), hg0c]
      set σ := Real.sqrt (((g0 :: grest).map fun q => q.standard_deviation ^ 2).sum)
        with hσ
      have hσ0 : 0 ≤ σ := Real.sqrt_nonneg _
      have hg : convolveGaussians ((p :: p1 :: rest1).filter isNormal)
          = .ok (.normal g0.central_value σ) := by
        rw [hgcons]
        exact convolveGaussians_ok g0 grest hgnorm hgcv
      rcases Bool.eq_false_or_eq_true
          (((p :: p1 :: rest1).filter fun q => !q.isNormal && !q.isDelta).isEmpty)
          with hoth | hoth
      · exact ⟨_, convolveDistributions_cons_nothers p (p1 :: rest1) (by simp)
          hcp _ hg hoth, hg0c⟩
      · have hstep : ∀ a ∈ ((p :: p1 :: rest1).filter fun q => !q.isNormal && !q.isDelta)
            ++ [ProbabilityDistribution.normal g0.central_value σ],
            ∃ b, fromPd a 1000 = .ok b ∧ (b.isNumerical = true ∧ b.central_value = c ∧
              b.support.1 ≤ c ∧ c ≤ b.support.2) := by
          intro a ha
          rcases List.mem_append.mp ha with hao | hag
          · have hamem := (List.mem_filter.mp hao).1
            have hand := (List.mem_filter.mp hao).2
            have hadelta : a.isDelta = false := by
              cases hDelta : a.isDelta
              · rfl
              · rw [hDelta] at hand
                simp at hand
            have hac : a.central_value = c := hcv a hamem
            have has := hsupp a hamem
            obtain ⟨logy, cdf, hfp⟩ := fromPd_ok a hadelta (hac ▸ has.1) (hac ▸ has.2)
            refine ⟨_, hfp, rfl, hac, ?_, ?_⟩
            · show (ProbabilityDistribution.numerical _ _ _ _).support.1 ≤ c
              simp only [ProbabilityDistribution.support]
              rw [linspace_headD _ _ _ (by norm_num)]
              exact has.1
            · show c ≤ (ProbabilityDistribution.numerical _ _ _ _).support.2
              simp only [ProbabilityDistribution.support]
              rw [linspace_getLastD _ _ _ (by norm_num)]
              exact has.2
          · have hag' : a = ProbabilityDistribution.normal g0.central_value σ := by
              simpa using hag
            subst hag'
            have hlo : (ProbabilityDistribution.normal g0.central_value σ).support.1
                ≤ (ProbabilityDistribution.normal g0.central_value σ).central_value := by
              simp only [ProbabilityDistribution.support,
                ProbabilityDistribution.central_value]
              linarith
            have hhi : (ProbabilityDistribution.normal g0.central_value σ).central_value
                ≤ (ProbabilityDistribution.normal g0.central_value σ).support.2 := by
              simp only [ProbabilityDistribution.support,
                ProbabilityDistribution.central_value]
              linarith
            obtain ⟨logy, cdf, hfp⟩ :=
              fromPd_ok (ProbabilityDistribution.normal g0.central_value σ) rfl hlo hhi
            refine ⟨_, hfp, rfl, hg0c, ?_, ?_⟩
            · show (ProbabilityDistribution.numerical _ _ _ _).support.1 ≤ c
              simp only [ProbabilityDistribution.support]
              rw [linspace_headD _ _ _ (by norm_num)]
              simp only [ProbabilityDistribution.support, hg0c]
              linarith
            · show c ≤ (ProbabilityDistribution.numerical _ _ _ _).support.2
              simp only [ProbabilityDistribution.support]
              rw [linspace_getLastD _ _ _ (by norm_num)]
              simp only [ProbabilityDistribution.support, hg0c]
              linarith
        obtain ⟨bs, hbs, hblen, hbP⟩ := tryMap_ok_of_forall _ _ _ hstep
        obtain ⟨b0, brest, rfl⟩ : ∃ b0 brest, bs = b0 :: brest := by
          cases hbsl : bs with
          | nil =>
            rw [hbsl] at hblen
            simp at hblen
          | cons b0 brest => exact ⟨b0, brest, rfl⟩
        obtain ⟨d, hd, hdc⟩ := convolveNumerical_ok b0 brest c
          (fun q hq => (hbP q hq).1)
          (fun q hq => (hbP q hq).2.1)
          (fun q hq => (hbP q hq).2.2)
        refine ⟨d, ?_, hdc⟩
        rw [convolveDistributions_cons_others p (p1 :: rest1) (by simp) hcp _ hg hoth
          _ hbs]
        exact hd

/-- C2 witness: convolve([Uniform(0,1), Normal(0,1)]) returns a
distribution with central value 0. -/
theorem convolve_same_central_witness :
    ∃ d, convolveDistributions
        [ProbabilityDistribution.uniform 0 1, ProbabilityDistribution.normal 0 1]
        = .ok d ∧ d.central_value = 0 := by
  apply convolve_same_central
  · simp
  · intro p hp
    fin_cases hp <;> rfl
  · intro p hp
    fin_cases hp <;>
      constructor <;>
      simp only [ProbabilityDistribution.support,
        ProbabilityDistribution.central_value] <;>
      norm_num
  · exact Or.inr ⟨ProbabilityDistribution.normal 0 1, by simp, rfl⟩

/-- C4: for every strictly positive-definite covariance matrix with
positive diagonal and every evaluation point x, the log-density computed
by MultivariateNormalDistribution.logpdf — rescale the point and the mean
by the marginal standard deviations, evaluate the library log-density on
the rescaled correlation-like matrix, add half the log of the determinant
ratio — equals the direct multivariate-normal log-density at x for mean
central_value and the original covariance, in exact real arithmetic. -/
theorem mv_logpdf_eq_direct {n : ℕ} (central x : Fin n → ℝ)
    (cov : Matrix (Fin n) (Fin n) ℝ) (hpd : cov.PosDef)
    (hdiag : ∀ i, 0 < cov i i) :
    MultivariateNormalDistribution.logpdf central cov x
      = mvnLogpdf x central cov := by
  have h := mvn_rescale n central x (fun i => Real.sqrt (cov i i)) cov
    (fun i => (Real.sqrt_pos.mpr (hdiag i)).ne') hpd.det_pos.ne'
  simpa only [MultivariateNormalDistribution.logpdf] using h

/-- C4 witness: the one-dimensional covariance matrix [[4]] at x = 1. -/
theorem mv_logpdf_eq_direct_witness :
    MultivariateNormalDistribution.logpdf (fun _ : Fin 1 => 0)
        (Matrix.of ![![(4 : ℝ)]]) (fun _ => 1)
      = mvnLogpdf (fun _ => 1) (fun _ : Fin 1 => 0) (Matrix.of ![![(4 : ℝ)]]) := by
  apply mv_logpdf_eq_direct
  · refine ⟨?_, ?_⟩
    · ext i j
      fin_cases i <;> fin_cases j <;> rfl
    · intro v hv
      have hv0 : v 0 ≠ 0 := by
        intro h0
        apply hv
        funext j
        fin_cases j
        exact h0
      have hdot : Matrix.dotProduct (star v) ((Matrix.of ![![(4 : ℝ)]]).mulVec v)
          = v 0 * (4 * v 0) := by
        simp [Matrix.dotProduct, Matrix.mulVec, Fin.sum_univ_one]
      rw [hdot]
      nlinarith [mul_self_pos.mpr hv0]
  · intro i
    fin_cases i
    norm_num

/-- C8 counterexample: NumericalDistribution accepts the strictly
DECREASING grid [2, 1, 0]: no validation of grid monotonicity exists in
the constructor, which succeeds and yields a usable object instead of
failing with a descriptive error. -/
theorem numericalInit_decreasing_grid_ok :
    isOk (numericalInit [2, 1, 0] [1, 1, 1] none) = true := by
  have harg : npArgmax [(1 : ℝ), 1, 1] = 0 := by
    norm_num [npArgmax, List.enum, List.enumFrom]
  have hc : ∀ x0 : ℝ, ∀ xs : List ℝ, ([2, 1, 0] : List ℝ) = x0 :: xs →
      numericalCentral x0 xs [1, 1, 1] none = .ok 2 := by
    intro x0 xs heq
    injection heq with h1 h2
    subst h1
    subst h2
    rw [numericalCentral_none 2 [1, 0] [1, 1, 1] (by simp) (by rw [harg]; norm_num)]
    rw [harg]
    rfl
  obtain ⟨logy, cdf, hok⟩ :=
    numericalInit_ok_of_central [2, 1, 0] [1, 1, 1] none 2 (by norm_num) (by norm_num) hc
  rw [hok]
  rfl

/-- C8 (amended): NumericalDistribution's constructor performs no
validation of grid monotonicity: for EVERY grid of at least two points —
increasing, decreasing or unsorted — and every y of matching length,
construction with a defaulted central value succeeds and yields a usable
object; the only validating check in the constructor is the one against
an explicitly supplied central value (and scipy's interp1d length
requirements). -/
theorem numericalInit_no_grid_validation (x y : List ℝ) (hx : 2 ≤ x.length)
    (hy : y.length = x.length) : isOk (numericalInit x y none) = true := by
  cases x with
  | nil => simp at hx
  | cons x0 xs =>
    have hyne : y ≠ [] := by
      intro hnil
      rw [hnil] at hy
      simp at hy
    have harg : npArgmax y < (x0 :: xs).length := by
      rw [← hy]
      exact npArgmax_lt y hyne
    have hc : ∀ a : ℝ, ∀ as : List ℝ, x0 :: xs = a :: as →
        numericalCentral a as y none = .ok ((x0 :: xs).getD (npArgmax y) 0) := by
      intro a as heq
      injection heq with h1 h2
      subst h1
      subst h2
      exact numericalCentral_none _ _ y hyne harg
    obtain ⟨logy, cdf, hok⟩ :=
      numericalInit_ok_of_central (x0 :: xs) y none ((x0 :: xs).getD (npArgmax y) 0)
        hx hy hc
    rw [hok]
    rfl

/-- C8 witness: an increasing three-point grid with matching y. -/
theorem numericalInit_no_grid_validation_witness :
    isOk (numericalInit [0, 1, 2] [1, 2, 1] none) = true :=
  numericalInit_no_grid_validation [0, 1, 2] [1, 2, 1] (by norm_num) (by norm_num)

/-- C9: for every successfully constructed bounded univariate variant the
central value lies in the closed support interval: Uniform with
half_range ≥ 0, Delta, Normal with sigma > 0, validated AsymmetricNormal,
HalfNormal of either sign, GaussianUpperLimit, and NumericalDistribution
with a strictly increasing grid.  Central value and support are plain
constructor data of the embedding and no operation rebuilds them,
matching the source, whose methods never assign these attributes outside
of __init__. -/
theorem central_value_in_support :
    (∀ c hr : ℝ, 0 ≤ hr → inSupport (.uniform c hr)) ∧
    (∀ c : ℝ, inSupport (.delta c)) ∧
    (∀ c σ : ℝ, 0 < σ → inSupport (.normal c σ)) ∧
    (∀ c rd ld : ℝ, ∀ d, asymmetricNormalInit c rd ld = .ok d → inSupport d) ∧
    (∀ c σ : ℝ, inSupport (.halfNormal c σ)) ∧
    (∀ ppf : ℝ → ℝ, ∀ limit cl : ℝ, ∀ d,
      gaussianUpperLimitInit ppf limit cl = .ok d → inSupport d) ∧
    (∀ x y : List ℝ, ∀ cv? : Option ℝ, ∀ d, List.Sorted (· < ·) x →
      numericalInit x y cv? = .ok d → inSupport d) := by
  refine ⟨?_, ?_, ?_, ?_, ?_, ?_, ?_⟩
  · intro c hr h
    constructor <;>
      simp only [inSupport, ProbabilityDistribution.support,
        ProbabilityDistribution.central_value] <;>
      linarith
  · intro c
    exact ⟨le_refl _, le_refl _⟩
  · intro c σ h
    constructor <;>
      simp only [inSupport, ProbabilityDistribution.support,
        ProbabilityDistribution.central_value] <;>
      linarith
  · intro c rd ld d h
    simp only [asymmetricNormalInit] at h
    split at h
    next => cases h
    next hcond =>
      push_neg at hcond
      cases h
      constructor <;>
        simp only [inSupport, ProbabilityDistribution.support,
          ProbabilityDistribution.central_value] <;>
        linarith [hcond.1, hcond.2]
  · intro c σ
    exact ⟨min_le_left _ _, le_max_left _ _⟩
  · intro ppf limit cl d h
    simp only [gaussianUpperLimitInit] at h
    split at h
    next => cases h
    next =>
      cases h
      exact ⟨min_le_left _ _, le_max_left _ _⟩
  · intro x y cv? d hs h
    obtain ⟨x0, xs, cv, logy, cdf, rfl, hc, hlen, hylen, rfl⟩ :=
      numericalInit_ok_inv _ _ _ _ h
    simp only [inSupport, ProbabilityDistribution.support,
      ProbabilityDistribution.central_value, List.headD_cons]
    rcases numericalCentral_ok_inv _ _ _ _ _ hc with ⟨_, h1, h2⟩ | ⟨_, hlt, rfl⟩
    · rw [List.getLastD_cons]
      exact ⟨h1, h2⟩
    · have hmem : (x0 :: xs).getD (npArgmax y) 0 ∈ x0 :: xs := getD_mem _ _ hlt
      have hle : List.Sorted (· ≤ ·) (x0 :: xs) := hs.imp fun hab => le_of_lt hab
      constructor
      · have hh := List.Sorted.head!_le hs hmem
        simpa using hh
      · rw [getLastD_of_ne_nil _ _ (List.cons_ne_nil x0 xs)]
        exact le_getLast_of_sorted _ hle _ hmem _

/-- C9 witness: Uniform(0, 1) has its central value inside its support. -/
theorem central_value_in_support_witness :
    inSupport (ProbabilityDistribution.uniform 0 1) :=
  central_value_in_support.1 0 1 (by norm_num)

/-- C6 witness: Uniform(0, 1) with count 3 yields a length-3 sequence. -/
theorem get_random_shape_witness :
    ∃ l : List ℝ, (ProbabilityDistribution.uniform 0 1).get_random (some 3)
      (fun _ => 0) (fun _ => 0) = .arr l ∧ l.length = 3 :=
  (get_random_shape (ProbabilityDistribution.uniform 0 1) rfl 3
    (fun _ => 0) (fun _ => 0)).1

end

end Flavio
